import Mathlib

/-!
Shallow embedding of the polynomial engine of the nuthatch repository: the
Cython kernels `c_packed_mul`, `c_sparse_mul`, `c_mon_mul`, `c_poly_mul`
(src/unnamed/part_003 and src/src/nuthatch/cython/cpoly.pyx), together with
the spec-described wrapper layer (kind/ring validation, packing-bound check,
Polynomial construction) whose Python sources are not part of the Cython
files.
-/

namespace Nuthatch

/-- Digit `i` of the packed value `v` in radix `B`: the exponent stored in
slot `i` of the packed encoding `v = Σ e_i · B^i`. -/
def packedDigit (B v i : Nat) : Nat := v / B ^ i % B

/-- Two's-complement wrap of a signed 32-bit C `int`: reduces into the
range `[-2^31, 2^31)` (the literals are `2^31` and `2^32`).  This is what
the compiled Cython kernel's `int` addition does to a sum that leaves the
C `int` range. -/
def wrap32 (x : Int) : Int := (x + 2147483648) % 4294967296 - 2147483648

/-- `c_packed_mul` from src/unnamed/part_003 (lines 7-10): the Packed
monomial product is the sum of the two encoded weights
(`self.weight + other.weight`).  Both are declared `cython.int`, a C 32-bit
signed integer in the compiled module ("Compiled in C in the file cpoly.c"),
so the addition silently wraps when the sum reaches `2^31`; the wrap is part
of the model. -/
def c_packed_mul (s o : Int) : Int := wrap32 (s + o)

/-- `c_sparse_mul` from src/unnamed/part_003 (lines 12-42): two-pointer merge
of two interleaved flat sequences `[i0, e0, i1, e1, ...]`.  The while loop
consumes one `(index, exponent)` pair per step (`self_index += 2`), emitting
the pair with the smaller index, or, at equal indices, the summed exponent
when the sum is non-zero; once one sequence is exhausted the remainder of the
other is copied verbatim (the two drain loops, here the append fallthrough
for the shapes on which the main loop cannot run). -/
def c_sparse_mul : List Int → List Int → List Int
  | i1 :: e1 :: r1, i2 :: e2 :: r2 =>
    if i1 < i2 then
      i1 :: e1 :: c_sparse_mul r1 (i2 :: e2 :: r2)
    else if i1 = i2 then
      if e1 + e2 ≠ 0 then
        i1 :: (e1 + e2) :: c_sparse_mul r1 r2
      else
        c_sparse_mul r1 r2
    else
      i2 :: e2 :: c_sparse_mul (i1 :: e1 :: r1) r2
  | l1, l2 => l1 ++ l2
termination_by l1 l2 => l1.length + l2.length
decreasing_by all_goals simp_arith

/-- Canonical-form check for a sparse tail relative to a strict lower bound
`b` on its indices: indices strictly increasing starting above `b`,
exponents non-zero, and the flat sequence made of whole pairs. -/
def sparseCanonFrom (b : Int) : List Int → Bool
  | [] => true
  | i :: e :: r => decide (b < i) && decide (e ≠ 0) && sparseCanonFrom i r
  | [_] => false

/-- Canonical-form invariant of a Sparse monomial (spec §3): even-position
indices strictly increasing and odd-position exponents non-zero. -/
def sparseCanon : List Int → Bool
  | [] => true
  | i :: e :: r => decide (e ≠ 0) && sparseCanonFrom i r
  | [_] => false

/-- Decoded exponent of variable `v` in a flat sparse sequence: the sum of
the exponents stored for index `v`. -/
def sparseExp : List Int → Int → Int
  | i :: e :: r, v => (if i = v then e else 0) + sparseExp r v
  | _, _ => 0

/-- A strict lower bound for every index of a sparse sequence (one below the
first index); used to connect `sparseCanon` with `sparseCanonFrom`. -/
def lowB : List Int → Int
  | i :: _ => i - 1
  | [] => 0

/-- Association-list model of the Python dict accumulation step of
`c_poly_mul`: `new_dict[k] += e` updates the entry for `k` in place when `k`
is present, and `new_dict[k] = e` appends a fresh entry at the end otherwise
(Python dicts preserve insertion order). -/
def dinsert {M R : Type} [DecidableEq M] [Add R] (k : M) (e : R) :
    List (M × R) → List (M × R)
  | [] => [(k, e)]
  | p :: rest => if p.1 = k then (p.1, p.2 + e) :: rest else p :: dinsert k e rest

/-- Lookup in the association-list model of a Python dict (`k in new_dict`
paired with `new_dict[k]`). -/
def dlookup {M R : Type} [DecidableEq M] (k : M) : List (M × R) → Option R
  | [] => none
  | p :: rest => if p.1 = k then some p.2 else dlookup k rest

/-- The list of `(product monomial, product coefficient)` pairs
`(m * n, c * d)` in the iteration order of the two nested loops of
`c_poly_mul` (outer loop over `self`, inner loop over `other`). -/
def termProducts {M R : Type} [Mul R] (mmul : M → M → M) (P Q : List (M × R)) :
    List (M × R) :=
  P.flatMap fun mc => Q.map fun nd => (mmul mc.1 nd.1, mc.2 * nd.2)

/-- All term pairs `((m,c), (n,d))` of two polynomials, in the iteration
order of the two nested loops of `c_poly_mul`. -/
def termPairs {M R : Type} (P Q : List (M × R)) : List ((M × R) × (M × R)) :=
  P.flatMap fun mc => Q.map fun nd => (mc, nd)

/-- The coefficients stored in a mapping fragment under key `k`, in order. -/
def keyVals {M R : Type} [DecidableEq M] (k : M) (l : List (M × R)) : List R :=
  (l.filter fun p => decide (p.1 = k)).map Prod.snd

/-- The `new_dict` accumulation loop of `c_poly_mul` (src/unnamed/part_003,
lines 45-53): fold the term products into an insertion-ordered mapping,
adding coefficients on key collision. -/
def c_poly_mul_acc {M R : Type} [DecidableEq M] [Add R] [Mul R]
    (mmul : M → M → M) (P Q : List (M × R)) : List (M × R) :=
  (termProducts mmul P Q).foldl (fun dict p => dinsert p.1 p.2 dict) []

/-- Modelled from the spec: the Polynomial constructor invoked as
`other.__class__(other.base_ring, new_dict)` on line 54 of
src/unnamed/part_003 is repository code not under src/; per spec §3 and §4.4
it stores the coefficient mapping in canonical form, dropping every entry
whose coefficient equals the ring's additive identity. -/
def polynomial_init {M R : Type} [Zero R] [DecidableEq R]
    (d : List (M × R)) : List (M × R) :=
  d.filter fun p => decide (p.2 ≠ 0)

/-- `c_poly_mul` from src/unnamed/part_003 (lines 44-54): accumulate the
term-pair products into `new_dict`, then build the result Polynomial from it
(final constructor call modelled from the spec, see `polynomial_init`). -/
def c_poly_mul {M R : Type} [DecidableEq M] [Add R] [Mul R] [Zero R]
    [DecidableEq R] (mmul : M → M → M) (P Q : List (M × R)) : List (M × R) :=
  polynomial_init (c_poly_mul_acc mmul P Q)

/-- Monomial data: the closed Packed | Sparse tagged variant (spec §9);
Packed stores the encoded weight (a non-negative integer that the Cython
kernels handle as a C `int`), Sparse the interleaved flat degree sequence. -/
inductive Mon where
  | packed (weight : Int)
  | sparse (degrees : List Int)
deriving DecidableEq

/-- The two monomial representation kinds. -/
inductive MonKind where
  | packed
  | sparse
deriving DecidableEq

/-- The representation kind of a monomial value. -/
def Mon.kind : Mon → MonKind
  | .packed _ => .packed
  | .sparse _ => .sparse

/-- Error taxonomy of the polynomial engine (spec §7), restricted to the
failures reachable from the embedded operations. -/
inductive PolyError where
  | KindMismatch
  | ExponentOverflow
deriving DecidableEq

/-- `c_mon_mul` from src/src/nuthatch/cython/cpoly.pyx (lines 2-34): the
packed branch sums the two weights, both declared `cython.int` exactly as in
`c_packed_mul`, so the compiled addition carries the same C-`int` wrap; the
sparse branch computes the merged `new_list` but the function body ends
without a `return` statement, so the call evaluates to Python `None`
(modelled as `none`).  Mixed-variant calls (exercised by no claim) fail on
attribute access in Python and are likewise modelled as `none`. -/
def c_mon_mul : Mon → Mon → Option Mon
  | .packed s, .packed o => some (.packed (wrap32 (s + o)))
  | .sparse a, .sparse b =>
    -- new_list is fully computed, then discarded by the missing return
    (fun _newList => none) (c_sparse_mul a b)
  | _, _ => none

/-- Modelled from the spec: the packing-bound validation of Packed
multiplication (spec §4.2) — the Python wrapper performing it is repository
code not under src/ — around the kernel `c_packed_mul`; `n` is the ring's
generator count, `B` the packing bound. -/
def c_packed_mul_checked (B n a b : Nat) : Except PolyError Int :=
  if (List.range n).any fun i =>
      decide (B ≤ packedDigit B a i + packedDigit B b i) then
    .error .ExponentOverflow
  else
    .ok (c_packed_mul (a : Int) (b : Int))

/-- Modelled from the spec: Monomial `multiply` requires both operands of
the same variant and fails with `KindMismatch` otherwise (spec §4.1); the
validating Python wrapper is repository code not under src/.  Same-variant
products delegate to the kernels `c_packed_mul` and `c_sparse_mul`. -/
def mon_mul_checked : Mon → Mon → Except PolyError Mon
  | .packed s, .packed o => .ok (.packed (c_packed_mul s o))
  | .sparse a, .sparse b => .ok (.sparse (c_sparse_mul a b))
  | _, _ => .error .KindMismatch

/-- Same-kind monomial product used inside a kind-validated polynomial
product; the mixed case is unreachable after validation and returns the left
operand. -/
def mon_mul_dispatch : Mon → Mon → Mon
  | .packed s, .packed o => .packed (c_packed_mul s o)
  | .sparse a, .sparse b => .sparse (c_sparse_mul a b)
  | m, _ => m

/-- Polynomial value: parent-ring identity, monomial kind tag, and the
coefficient mapping (spec §3). -/
structure Poly (R : Type) where
  ringId : Nat
  kind : MonKind
  terms : List (Mon × R)

/-- Modelled from the spec: the Polynomial multiplication wrapper —
repository code not under src/ — validates that parent ring and monomial
kind match exactly, failing with `KindMismatch` and never coercing (spec §3,
§7), before delegating to `c_poly_mul`. -/
def poly_mul_checked {R : Type} [Add R] [Mul R] [Zero R] [DecidableEq R]
    (P Q : Poly R) : Except PolyError (Poly R) :=
  if P.ringId = Q.ringId ∧ P.kind = Q.kind then
    .ok ⟨Q.ringId, Q.kind, c_poly_mul mon_mul_dispatch P.terms Q.terms⟩
  else
    .error .KindMismatch

/-! Unfolding equations for `c_sparse_mul`, one per branch of the merge. -/

theorem c_sparse_mul_lt {i1 e1 i2 e2 : Int} {r1 r2 : List Int} (h : i1 < i2) :
    c_sparse_mul (i1 :: e1 :: r1) (i2 :: e2 :: r2) =
      i1 :: e1 :: c_sparse_mul r1 (i2 :: e2 :: r2) := by
  rw [c_sparse_mul.eq_def]
  simp [h]

theorem c_sparse_mul_eq_ne {i e1 e2 : Int} {r1 r2 : List Int}
    (h : e1 + e2 ≠ 0) :
    c_sparse_mul (i :: e1 :: r1) (i :: e2 :: r2) =
      i :: (e1 + e2) :: c_sparse_mul r1 r2 := by
  rw [c_sparse_mul.eq_def]
  simp [h]

theorem c_sparse_mul_eq_zero {i e1 e2 : Int} {r1 r2 : List Int}
    (h : e1 + e2 = 0) :
    c_sparse_mul (i :: e1 :: r1) (i :: e2 :: r2) = c_sparse_mul r1 r2 := by
  rw [c_sparse_mul.eq_def]
  simp [h]

theorem c_sparse_mul_gt {i1 e1 i2 e2 : Int} {r1 r2 : List Int} (h : i2 < i1) :
    c_sparse_mul (i1 :: e1 :: r1) (i2 :: e2 :: r2) =
      i2 :: e2 :: c_sparse_mul (i1 :: e1 :: r1) r2 := by
  rw [c_sparse_mul.eq_def]
  have h1 : ¬ i1 < i2 := by omega
  have h2 : ¬ i1 = i2 := by omega
  simp [h1, h2]

theorem c_sparse_mul_nil_left (l : List Int) : c_sparse_mul [] l = l := by
  rw [c_sparse_mul.eq_def]
  split
  · rename_i h
    cases h
  · simp

theorem c_sparse_mul_nil_right (l : List Int) : c_sparse_mul l [] = l := by
  rw [c_sparse_mul.eq_def]
  split
  · rename_i h
    cases h
  · simp

/-- Weakening the strict lower bound of a canonical sparse tail. -/
theorem sparseCanonFrom_mono {b' b : Int} (h : b' ≤ b) :
    ∀ {l : List Int}, sparseCanonFrom b l = true → sparseCanonFrom b' l = true
  | [], _ => rfl
  | [x], hl => by simp [sparseCanonFrom] at hl
  | i :: e :: r, hl => by
    simp only [sparseCanonFrom, Bool.and_eq_true, decide_eq_true_eq] at hl ⊢
    exact ⟨⟨lt_of_le_of_lt h hl.1.1, hl.1.2⟩, hl.2⟩

/-- A bounded-canonical sparse sequence is canonical. -/
theorem sparseCanonFrom_sparseCanon {b : Int} :
    ∀ {l : List Int}, sparseCanonFrom b l = true → sparseCanon l = true
  | [], _ => rfl
  | [x], h => by simp [sparseCanonFrom] at h
  | i :: e :: r, h => by
    simp only [sparseCanonFrom, Bool.and_eq_true, decide_eq_true_eq] at h
    simp only [sparseCanon, Bool.and_eq_true, decide_eq_true_eq]
    exact ⟨h.1.2, h.2⟩

/-- A canonical sparse sequence is bounded-canonical below its first index. -/
theorem sparseCanon_sparseCanonFrom :
    ∀ {l : List Int}, sparseCanon l = true → sparseCanonFrom (lowB l) l = true
  | [], _ => rfl
  | [x], h => by simp [sparseCanon] at h
  | i :: e :: r, h => by
    simp only [sparseCanon, Bool.and_eq_true, decide_eq_true_eq] at h
    simp only [lowB, sparseCanonFrom, Bool.and_eq_true, decide_eq_true_eq]
    exact ⟨⟨by omega, h.1⟩, h.2⟩

/-- The merge of two bounded-canonical sparse sequences is bounded-canonical:
sortedness is preserved and zero exponents are cancelled inline. -/
theorem sparseCanonFrom_c_sparse_mul (l1 l2 : List Int) :
    ∀ b : Int, sparseCanonFrom b l1 = true → sparseCanonFrom b l2 = true →
      sparseCanonFrom b (c_sparse_mul l1 l2) = true := by
  induction l1, l2 using c_sparse_mul.induct with
  | case1 i1 e1 r1 i2 e2 r2 hlt ih =>
    intro b h1 h2
    simp only [sparseCanonFrom, Bool.and_eq_true, decide_eq_true_eq] at h1 h2
    rw [c_sparse_mul_lt hlt]
    simp only [sparseCanonFrom, Bool.and_eq_true, decide_eq_true_eq]
    refine ⟨⟨h1.1.1, h1.1.2⟩, ih i1 h1.2 ?_⟩
    simp only [sparseCanonFrom, Bool.and_eq_true, decide_eq_true_eq]
    exact ⟨⟨hlt, h2.1.2⟩, h2.2⟩
  | case2 e1 r1 i2 e2 r2 hne hnlt ih =>
    intro b h1 h2
    simp only [sparseCanonFrom, Bool.and_eq_true, decide_eq_true_eq] at h1 h2
    rw [c_sparse_mul_eq_ne hne]
    simp only [sparseCanonFrom, Bool.and_eq_true, decide_eq_true_eq]
    exact ⟨⟨h1.1.1, hne⟩, ih i2 h1.2 h2.2⟩
  | case3 e1 r1 i2 e2 r2 hz hnlt ih =>
    intro b h1 h2
    simp only [sparseCanonFrom, Bool.and_eq_true, decide_eq_true_eq] at h1 h2
    rw [c_sparse_mul_eq_zero (by omega)]
    exact ih b (sparseCanonFrom_mono (le_of_lt h1.1.1) h1.2)
      (sparseCanonFrom_mono (le_of_lt h2.1.1) h2.2)
  | case4 i1 e1 r1 i2 e2 r2 hn1 hn2 ih =>
    intro b h1 h2
    have hgt : i2 < i1 := by omega
    simp only [sparseCanonFrom, Bool.and_eq_true, decide_eq_true_eq] at h1 h2
    rw [c_sparse_mul_gt hgt]
    simp only [sparseCanonFrom, Bool.and_eq_true, decide_eq_true_eq]
    refine ⟨⟨h2.1.1, h2.1.2⟩, ih i2 ?_ h2.2⟩
    simp only [sparseCanonFrom, Bool.and_eq_true, decide_eq_true_eq]
    exact ⟨⟨hgt, h1.1.2⟩, h1.2⟩
  | case5 l1 l2 hshape =>
    intro b h1 h2
    have hm : c_sparse_mul l1 l2 = l1 ++ l2 := by
      rw [c_sparse_mul.eq_def]
      split
      · rename_i i1 e1 r1 i2 e2 r2
        exact (hshape i1 e1 r1 i2 e2 r2 rfl rfl).elim
      · rfl
    rw [hm]
    match l1, h1 with
    | [], _ => exact h2
    | [x], h1 => simp [sparseCanonFrom] at h1
    | i :: e :: r, h1 =>
      match l2, h2 with
      | [], _ => rw [List.append_nil]; exact h1
      | [y], h2 => simp [sparseCanonFrom] at h2
      | j :: f :: s, h2 => exact (hshape i e r j f s rfl rfl).elim

/-- The merge adds exponent vectors pointwise: the decoded exponent of every
variable in the merge of two bounded-canonical sparse sequences is the sum
of the decoded exponents of the inputs. -/
theorem sparseExp_c_sparse_mul (l1 l2 : List Int) :
    ∀ b v : Int, sparseCanonFrom b l1 = true → sparseCanonFrom b l2 = true →
      sparseExp (c_sparse_mul l1 l2) v = sparseExp l1 v + sparseExp l2 v := by
  induction l1, l2 using c_sparse_mul.induct with
  | case1 i1 e1 r1 i2 e2 r2 hlt ih =>
    intro b v h1 h2
    simp only [sparseCanonFrom, Bool.and_eq_true, decide_eq_true_eq] at h1 h2
    have hc2 : sparseCanonFrom i1 (i2 :: e2 :: r2) = true := by
      simp only [sparseCanonFrom, Bool.and_eq_true, decide_eq_true_eq]
      exact ⟨⟨hlt, h2.1.2⟩, h2.2⟩
    rw [c_sparse_mul_lt hlt]
    simp only [sparseExp]
    rw [ih i1 v h1.2 hc2]
    simp only [sparseExp]
    ring
  | case2 e1 r1 i2 e2 r2 hne hnlt ih =>
    intro b v h1 h2
    simp only [sparseCanonFrom, Bool.and_eq_true, decide_eq_true_eq] at h1 h2
    rw [c_sparse_mul_eq_ne hne]
    simp only [sparseExp]
    rw [ih i2 v h1.2 h2.2]
    by_cases hv : i2 = v <;> (simp [hv]; try omega)
  | case3 e1 r1 i2 e2 r2 hz hnlt ih =>
    intro b v h1 h2
    have hz' : e1 + e2 = 0 := by omega
    simp only [sparseCanonFrom, Bool.and_eq_true, decide_eq_true_eq] at h1 h2
    rw [c_sparse_mul_eq_zero hz']
    rw [ih b v (sparseCanonFrom_mono (le_of_lt h1.1.1) h1.2)
      (sparseCanonFrom_mono (le_of_lt h2.1.1) h2.2)]
    simp only [sparseExp]
    by_cases hv : i2 = v <;> (simp [hv]; try omega)
  | case4 i1 e1 r1 i2 e2 r2 hn1 hn2 ih =>
    intro b v h1 h2
    have hgt : i2 < i1 := by omega
    simp only [sparseCanonFrom, Bool.and_eq_true, decide_eq_true_eq] at h1 h2
    have hc1 : sparseCanonFrom i2 (i1 :: e1 :: r1) = true := by
      simp only [sparseCanonFrom, Bool.and_eq_true, decide_eq_true_eq]
      exact ⟨⟨hgt, h1.1.2⟩, h1.2⟩
    rw [c_sparse_mul_gt hgt]
    simp only [sparseExp]
    rw [ih i2 v hc1 h2.2]
    simp only [sparseExp]
    ring
  | case5 l1 l2 hshape =>
    intro b v h1 h2
    have hm : c_sparse_mul l1 l2 = l1 ++ l2 := by
      rw [c_sparse_mul.eq_def]
      split
      · rename_i i1 e1 r1 i2 e2 r2
        exact (hshape i1 e1 r1 i2 e2 r2 rfl rfl).elim
      · rfl
    rw [hm]
    match l1, h1 with
    | [], _ => simp [sparseExp]
    | [x], h1 => simp [sparseCanonFrom] at h1
    | i :: e :: r, h1 =>
      match l2, h2 with
      | [], _ => simp [sparseExp]
      | [y], h2 => simp [sparseCanonFrom] at h2
      | j :: f :: s, h2 => exact (hshape i e r j f s rfl rfl).elim

/-- C1: for every two canonical Sparse monomials, `c_sparse_mul` returns a
sequence whose decoded exponent vector is the pointwise sum of the two input
exponent vectors; in particular, merging `(0,1,2,3)` with `(1,2,2,4)` yields
`(0,1,1,2,2,7)`. -/
theorem c1_sparse_mul_exponent_sum (a b : List Int)
    (ha : sparseCanon a = true) (hb : sparseCanon b = true) :
    (∀ v, sparseExp (c_sparse_mul a b) v = sparseExp a v + sparseExp b v) ∧
      c_sparse_mul [0, 1, 2, 3] [1, 2, 2, 4] = [0, 1, 1, 2, 2, 7] := by
  constructor
  · intro v
    have h1 : sparseCanonFrom (min (lowB a) (lowB b)) a = true :=
      sparseCanonFrom_mono (min_le_left _ _) (sparseCanon_sparseCanonFrom ha)
    have h2 : sparseCanonFrom (min (lowB a) (lowB b)) b = true :=
      sparseCanonFrom_mono (min_le_right _ _) (sparseCanon_sparseCanonFrom hb)
    exact sparseExp_c_sparse_mul a b _ v h1 h2
  · norm_num [c_sparse_mul.eq_def]

/-- Witness for C1 at the spec's example inputs. -/
theorem c1_sparse_mul_exponent_sum_witness :
    c_sparse_mul [0, 1, 2, 3] [1, 2, 2, 4] = [0, 1, 1, 2, 2, 7] :=
  (c1_sparse_mul_exponent_sum [0, 1, 2, 3] [1, 2, 2, 4]
    (by decide) (by decide)).2

/-- C6: the merge of two Sparse monomial sequences satisfying the
canonical-form invariant again satisfies it: indices strictly increasing and
no zero-exponent entry. -/
theorem c6_sparse_mul_canonical (a b : List Int)
    (ha : sparseCanon a = true) (hb : sparseCanon b = true) :
    sparseCanon (c_sparse_mul a b) = true := by
  have h1 : sparseCanonFrom (min (lowB a) (lowB b)) a = true :=
    sparseCanonFrom_mono (min_le_left _ _) (sparseCanon_sparseCanonFrom ha)
  have h2 : sparseCanonFrom (min (lowB a) (lowB b)) b = true :=
    sparseCanonFrom_mono (min_le_right _ _) (sparseCanon_sparseCanonFrom hb)
  exact sparseCanonFrom_sparseCanon (sparseCanonFrom_c_sparse_mul a b _ h1 h2)

/-- Witness for C6 at concrete canonical inputs. -/
theorem c6_sparse_mul_canonical_witness :
    sparseCanon (c_sparse_mul [0, 1, 2, 3] [1, 2, 2, 4]) = true :=
  c6_sparse_mul_canonical [0, 1, 2, 3] [1, 2, 2, 4] (by decide) (by decide)

/-- Slot 0 of a packed value is its residue modulo the packing bound. -/
theorem packedDigit_zero (B v : Nat) : packedDigit B v 0 = v % B := by
  simp [packedDigit]

/-- Higher slots of a packed value are the slots of its quotient by `B`. -/
theorem packedDigit_succ (B v i : Nat) :
    packedDigit B v (i + 1) = packedDigit B (v / B) i := by
  simp only [packedDigit, Nat.div_div_eq_div_mul, pow_succ']

/-- Slots at or beyond the generator count of an in-range packed value are
zero. -/
theorem packedDigit_eq_zero_of_lt {B n v : Nat} (hB : 0 < B) (hv : v < B ^ n)
    {i : Nat} (hi : n ≤ i) : packedDigit B v i = 0 := by
  have hvi : v < B ^ i := lt_of_lt_of_le hv (Nat.pow_le_pow_right hB hi)
  simp [packedDigit, Nat.div_eq_of_lt hvi]

/-- Carry-free addition of packed values: when no slot-wise digit sum
reaches the packing bound, the digits of the sum are the sums of the
digits — no carry crosses a slot boundary. -/
theorem packedDigit_add (B : Nat) (hB : 0 < B) :
    ∀ (i a b : Nat), (∀ j, packedDigit B a j + packedDigit B b j < B) →
      packedDigit B (a + b) i = packedDigit B a i + packedDigit B b i
  | 0, a, b, h => by
    have h0 := h 0
    simp only [packedDigit_zero] at h0 ⊢
    rw [Nat.add_mod]
    exact Nat.mod_eq_of_lt h0
  | i + 1, a, b, h => by
    have h0 := h 0
    simp only [packedDigit_zero] at h0
    have key : B * (a / B + b / B) + (a % B + b % B) = a + b := by
      have ha := Nat.div_add_mod a B
      have hb := Nat.div_add_mod b B
      calc B * (a / B + b / B) + (a % B + b % B)
          = (B * (a / B) + a % B) + (B * (b / B) + b % B) := by ring
        _ = a + b := by rw [ha, hb]
    have hdiv : (a + b) / B = a / B + b / B := by
      rw [← key, Nat.mul_add_div hB, Nat.div_eq_of_lt h0, Nat.add_zero]
    simp only [packedDigit_succ]
    rw [hdiv]
    exact packedDigit_add B hB i (a / B) (b / B) fun j => by
      simpa only [packedDigit_succ] using h (j + 1)

/-- The C-`int` wrap is the identity inside the C `int` range
`[-2^31, 2^31)`. -/
theorem wrap32_eq_self {x : Int} (h1 : -2147483648 ≤ x)
    (h2 : x < 2147483648) : wrap32 x = x := by
  unfold wrap32
  rw [Int.emod_eq_of_lt (by omega) (by omega)]
  omega

/-- C2 counterexample: with bound `B = 2^16` and `n = 2` generator slots,
the weights `a = b = 2^30` pass the digit-wise check (slot sums `0` and
`2^15`, both below `B`), yet the kernel's C-`int` addition wraps
`2^30 + 2^30 = 2^31` to `-2^31`, so the checked multiplication returns a
packed value that is not the exponent-sum encoding `2^31` — a silently
corrupted product instead of an `ExponentOverflow` failure. -/
theorem c2_packed_mul_wrap_counterexample :
    c_packed_mul_checked (2 ^ 16) 2 (2 ^ 30) (2 ^ 30) =
        .ok (-(2 ^ 31 : Int)) ∧
      -(2 ^ 31 : Int) ≠ ((2 ^ 30 : Nat) : Int) + ((2 ^ 30 : Nat) : Int) := by
  constructor
  · rfl
  · decide

/-- C2, amended: for Packed monomials encoding `n` exponent slots below
bound `B`, whose weight sum moreover stays inside the C `int` range of the
compiled kernel (below `2^31`), the checked Packed multiplication fails with
`ExponentOverflow` whenever the digit-wise exponent sum reaches `B` in some
slot, and whenever it succeeds it returns exactly the exponent-sum encoding:
its digits are the slot-wise exponent sums, with no wrap or carry into a
neighboring slot.  (Without the range bound the C-`int` addition can wrap,
see the counterexample.) -/
theorem c2_packed_mul_overflow (B n a b : Nat) (hB : 0 < B)
    (ha : a < B ^ n) (hb : b < B ^ n) (hrange : a + b < 2 ^ 31) :
    ((∃ i, i < n ∧ B ≤ packedDigit B a i + packedDigit B b i) →
        c_packed_mul_checked B n a b = .error .ExponentOverflow) ∧
    (∀ w, c_packed_mul_checked B n a b = .ok w →
        w = ((a + b : Nat) : Int) ∧
        ∀ i, packedDigit B (a + b) i =
          packedDigit B a i + packedDigit B b i) := by
  constructor
  · rintro ⟨i, hi, hover⟩
    unfold c_packed_mul_checked
    rw [if_pos]
    exact List.any_eq_true.mpr
      ⟨i, List.mem_range.mpr hi, decide_eq_true hover⟩
  · intro w hw
    unfold c_packed_mul_checked at hw
    by_cases hg : ((List.range n).any fun i =>
        decide (B ≤ packedDigit B a i + packedDigit B b i)) = true
    · rw [if_pos hg] at hw
      cases hw
    · rw [if_neg hg] at hw
      have hall : ∀ j, packedDigit B a j + packedDigit B b j < B := by
        intro j
        by_cases hj : j < n
        · by_contra hge
          exact hg (List.any_eq_true.mpr
            ⟨j, List.mem_range.mpr hj, decide_eq_true (by omega)⟩)
        · rw [packedDigit_eq_zero_of_lt hB ha (by omega),
            packedDigit_eq_zero_of_lt hB hb (by omega)]
          omega
      have hw' : w = ((a + b : Nat) : Int) := by
        rw [Except.ok.injEq] at hw
        subst hw
        show wrap32 ((a : Int) + (b : Int)) = ((a + b : Nat) : Int)
        have hcast : (a : Int) + (b : Int) = ((a + b : Nat) : Int) := by
          push_cast
          ring
        have h31 : a + b < 2147483648 := by
          have hlit : (2 ^ 31 : Nat) = 2147483648 := by norm_num
          omega
        rw [hcast]
        exact wrap32_eq_self (by omega) (by exact_mod_cast h31)
      exact ⟨hw', fun i => packedDigit_add B hB i a b hall⟩

/-- Witness for C2 (amended): with bound 10 and one slot, weights 5 and 7
overflow slot 0 and the checked multiplication fails. -/
theorem c2_packed_mul_overflow_witness :
    c_packed_mul_checked 10 1 5 7 = .error .ExponentOverflow :=
  (c2_packed_mul_overflow 10 1 5 7 (by decide) (by decide) (by decide)
    (by norm_num)).1 ⟨0, by decide, by decide⟩

/-! Lookup laws of the insertion-ordered mapping model. -/

theorem dlookup_dinsert_self {M R : Type} [DecidableEq M] [Add R] (k : M)
    (e : R) : ∀ l : List (M × R),
      dlookup k (dinsert k e l) =
        some (match dlookup k l with | some v => v + e | none => e)
  | [] => by simp [dinsert, dlookup]
  | p :: rest => by
    by_cases hp : p.1 = k
    · simp [dinsert, dlookup, hp]
    · simp only [dinsert, dlookup, if_neg hp]
      exact dlookup_dinsert_self k e rest

theorem dlookup_dinsert_ne {M R : Type} [DecidableEq M] [Add R] {k' k : M}
    (e : R) (h : k' ≠ k) : ∀ l : List (M × R),
      dlookup k (dinsert k' e l) = dlookup k l
  | [] => by simp [dinsert, dlookup, h]
  | p :: rest => by
    by_cases hp : p.1 = k'
    · simp only [dinsert, if_pos hp, dlookup]
      rw [if_neg (hp ▸ h), if_neg (hp ▸ h)]
    · simp only [dinsert, if_neg hp, dlookup]
      by_cases hk : p.1 = k
      · rw [if_pos hk, if_pos hk]
      · rw [if_neg hk, if_neg hk]
        exact dlookup_dinsert_ne e h rest

theorem keyVals_cons {M R : Type} [DecidableEq M] (k : M) (p : M × R)
    (l : List (M × R)) :
    keyVals k (p :: l) =
      if p.1 = k then p.2 :: keyVals k l else keyVals k l := by
  by_cases hp : p.1 = k <;> simp [keyVals, List.filter_cons, hp]

theorem foldl_add_eq_add_sum {R : Type} [AddMonoid R] :
    ∀ (vs : List R) (v : R), vs.foldl (· + ·) v = v + vs.sum
  | [], v => by simp
  | w :: ws, v => by
    rw [List.foldl_cons, foldl_add_eq_add_sum ws (v + w), List.sum_cons,
      add_assoc]

/-- Characterization of the dict after folding a list of key/value pairs
through `dinsert`: the entry at `k` accumulates, left to right, every value
listed under `k`. -/
theorem dlookup_foldl_dinsert {M R : Type} [DecidableEq M] [Add R] :
    ∀ (l acc : List (M × R)) (k : M),
      dlookup k (l.foldl (fun dict p => dinsert p.1 p.2 dict) acc) =
        match dlookup k acc with
        | some v0 => some ((keyVals k l).foldl (· + ·) v0)
        | none =>
          match keyVals k l with
          | [] => none
          | v :: vs => some (vs.foldl (· + ·) v)
  | [], acc, k => by
    cases hacc : dlookup k acc <;> simp [keyVals, hacc]
  | p :: rest, acc, k => by
    rw [List.foldl_cons, dlookup_foldl_dinsert rest (dinsert p.1 p.2 acc) k,
      keyVals_cons]
    by_cases hp : p.1 = k
    · subst hp
      rw [dlookup_dinsert_self]
      cases hacc : dlookup p.1 acc <;> simp [hacc]
    · rw [dlookup_dinsert_ne p.2 hp, if_neg hp]

/-- The accumulated `new_dict` of `c_poly_mul`, at key `k`: absent when no
term pair produces `k`, and otherwise the sum of the produced coefficients. -/
theorem dlookup_c_poly_mul_acc {M R : Type} [DecidableEq M] [AddMonoid R]
    [Mul R] (mmul : M → M → M) (P Q : List (M × R)) (k : M) :
    dlookup k (c_poly_mul_acc mmul P Q) =
      if (keyVals k (termProducts mmul P Q)).isEmpty then none
      else some (keyVals k (termProducts mmul P Q)).sum := by
  unfold c_poly_mul_acc
  rw [dlookup_foldl_dinsert]
  simp only [dlookup]
  cases hkv : keyVals k (termProducts mmul P Q) with
  | nil => simp
  | cons v vs => simp [foldl_add_eq_add_sum, List.isEmpty_cons]

/-- The term-product list is the image of the term-pair list. -/
theorem termProducts_eq_termPairs {M R : Type} [Mul R] (mmul : M → M → M)
    (P Q : List (M × R)) :
    termProducts mmul P Q =
      (termPairs P Q).map fun t => (mmul t.1.1 t.2.1, t.1.2 * t.2.2) := by
  unfold termProducts termPairs
  rw [List.map_flatMap]
  simp only [List.map_map]
  rfl

/-- C3: the coefficient mapping accumulated by `c_poly_mul` assigns to each
monomial `k` the ring sum of `c * d` over exactly those term pairs `(m, c)`
of `P` and `(n, d)` of `Q` whose monomial product `m * n` equals `k`, and no
other key appears. -/
theorem c3_poly_mul_coefficients {M R : Type} [DecidableEq M] [AddMonoid R]
    [Mul R] (mmul : M → M → M) (P Q : List (M × R)) (k : M) :
    dlookup k (c_poly_mul_acc mmul P Q) =
      (let vals := ((termPairs P Q).filter fun t =>
          decide (mmul t.1.1 t.2.1 = k)).map fun t => t.1.2 * t.2.2
       if vals.isEmpty then none else some vals.sum) := by
  rw [dlookup_c_poly_mul_acc]
  have hkv : keyVals k (termProducts mmul P Q) =
      ((termPairs P Q).filter fun t =>
        decide (mmul t.1.1 t.2.1 = k)).map fun t => t.1.2 * t.2.2 := by
    rw [keyVals, termProducts_eq_termPairs, List.filter_map, List.map_map]
    rfl
  rw [hkv]

/-- C4: every coefficient stored in the result of `c_poly_mul` is non-zero —
any accumulated entry whose coefficient equals the ring's additive identity
is dropped by the constructing step before the result is returned. -/
theorem c4_poly_mul_nonzero {M R : Type} [DecidableEq M] [Add R] [Mul R]
    [Zero R] [DecidableEq R] (mmul : M → M → M) (P Q : List (M × R))
    (p : M × R) (hp : p ∈ c_poly_mul mmul P Q) : p.2 ≠ 0 := by
  unfold c_poly_mul polynomial_init at hp
  simpa using List.of_mem_filter hp

/-- Witness for C4 at a concrete product over the integers. -/
theorem c4_poly_mul_nonzero_witness :
    ((0, (2 : Int)) ∈ c_poly_mul Nat.add [(0, (1 : Int))] [(0, 2)]) ∧
      (2 : Int) ≠ 0 :=
  ⟨by decide,
    c4_poly_mul_nonzero Nat.add [(0, (1 : Int))] [(0, 2)] (0, 2) (by decide)⟩

/-! Keys of the accumulated mapping are distinct, and lookup commutes with
the zero-coefficient drop of the constructor. -/

theorem dlookup_eq_none_iff {M R : Type} [DecidableEq M] {k : M}
    (l : List (M × R)) : dlookup k l = none ↔ k ∉ l.map Prod.fst := by
  induction l with
  | nil => simp [dlookup]
  | cons p rest ih =>
    by_cases hp : p.1 = k
    · simp [dlookup, hp]
    · rw [List.map_cons]
      simp only [dlookup, if_neg hp, List.mem_cons]
      rw [ih]
      constructor
      · intro h hmem
        rcases hmem with h1 | h1
        · exact hp h1.symm
        · exact h h1
      · intro h h1
        exact h (Or.inr h1)

theorem map_fst_dinsert {M R : Type} [DecidableEq M] [Add R] (k : M) (e : R) :
    ∀ l : List (M × R), (dinsert k e l).map Prod.fst =
      if k ∈ l.map Prod.fst then l.map Prod.fst
      else l.map Prod.fst ++ [k]
  | [] => by simp [dinsert]
  | p :: rest => by
    by_cases hp : p.1 = k
    · simp [dinsert, hp]
    · simp only [dinsert, if_neg hp, List.map_cons, map_fst_dinsert k e rest]
      by_cases hk : k ∈ rest.map Prod.fst
      · rw [if_pos hk, if_pos (List.mem_cons.mpr (Or.inr hk))]
      · rw [if_neg hk, if_neg ?_, List.cons_append]
        intro hmem
        rcases List.mem_cons.mp hmem with h | h
        · exact hp h.symm
        · exact hk h

theorem nodup_keys_dinsert {M R : Type} [DecidableEq M] [Add R]
    {l : List (M × R)} (h : (l.map Prod.fst).Nodup) (k : M) (e : R) :
    ((dinsert k e l).map Prod.fst).Nodup := by
  rw [map_fst_dinsert]
  by_cases hk : k ∈ l.map Prod.fst
  · rwa [if_pos hk]
  · rw [if_neg hk]
    refine h.append (List.nodup_singleton k) ?_
    intro a ha hb
    rw [List.mem_singleton.mp hb] at ha
    exact hk ha

theorem nodup_keys_c_poly_mul_acc {M R : Type} [DecidableEq M] [Add R]
    [Mul R] (mmul : M → M → M) (P Q : List (M × R)) :
    ((c_poly_mul_acc mmul P Q).map Prod.fst).Nodup := by
  unfold c_poly_mul_acc
  generalize termProducts mmul P Q = l
  have key : ∀ (l acc : List (M × R)), (acc.map Prod.fst).Nodup →
      (((l.foldl (fun dict p => dinsert p.1 p.2 dict) acc)).map
        Prod.fst).Nodup := by
    intro l
    induction l with
    | nil => intro acc h; exact h
    | cons p rest ih =>
      intro acc h
      exact ih _ (nodup_keys_dinsert h p.1 p.2)
  exact key l [] (by simp)

theorem dlookup_polynomial_init {M R : Type} [DecidableEq M] [Zero R]
    [DecidableEq R] {l : List (M × R)} (h : (l.map Prod.fst).Nodup) (k : M) :
    dlookup k (polynomial_init l) =
      (dlookup k l).bind fun v => if v = 0 then none else some v := by
  induction l with
  | nil => simp [polynomial_init, dlookup]
  | cons p rest ih =>
    rw [List.map_cons, List.nodup_cons] at h
    by_cases hz : p.2 = 0
    · have hdrop : polynomial_init (p :: rest) = polynomial_init rest := by
        simp [polynomial_init, List.filter_cons, hz]
      rw [hdrop]
      by_cases hp : p.1 = k
      · subst hp
        rw [ih h.2]
        rw [(dlookup_eq_none_iff rest).mpr h.1]
        simp [dlookup, hz]
      · rw [ih h.2]
        simp [dlookup, hp]
    · have hkeep : polynomial_init (p :: rest) = p :: polynomial_init rest := by
        simp [polynomial_init, List.filter_cons, hz]
      rw [hkeep]
      by_cases hp : p.1 = k
      · simp [dlookup, hp, hz]
      · simp only [dlookup, if_neg hp]
        exact ih h.2

/-! Permutation argument for commutativity of the polynomial product. -/

theorem termPairs_nil_right {M R : Type} :
    ∀ P : List (M × R), termPairs P ([] : List (M × R)) = []
  | [] => rfl
  | p :: rest => by
    simp only [termPairs, List.flatMap_cons, List.map_nil, List.nil_append]
    exact termPairs_nil_right rest

theorem termPairs_cons {M R : Type} (a : M × R) (P Q : List (M × R)) :
    termPairs (a :: P) Q = (Q.map fun nd => (a, nd)) ++ termPairs P Q := by
  simp [termPairs]

theorem flatMap_cons_perm {α β : Type} (f : α → β) (g : α → List β) :
    ∀ Q : List α,
      (Q.flatMap fun x => f x :: g x).Perm (Q.map f ++ Q.flatMap g)
  | [] => by simp
  | b :: Q => by
    simp only [List.flatMap_cons, List.map_cons, List.cons_append]
    refine List.Perm.cons (f b) ?_
    have s1 : (g b ++ Q.flatMap fun x => f x :: g x).Perm
        (g b ++ (Q.map f ++ Q.flatMap g)) :=
      (flatMap_cons_perm f g Q).append_left (g b)
    have s2 : (g b ++ (Q.map f ++ Q.flatMap g)).Perm
        (Q.map f ++ (g b ++ Q.flatMap g)) := by
      rw [← List.append_assoc, ← List.append_assoc]
      exact List.perm_append_comm.append_right _
    exact s1.trans s2

theorem termPairs_swap_perm {M R : Type} :
    ∀ P Q : List (M × R), ((termPairs P Q).map Prod.swap).Perm (termPairs Q P)
  | [], Q => by simp [termPairs, termPairs_nil_right]
  | a :: P, Q => by
    rw [termPairs_cons, List.map_append, List.map_map]
    have h1 : termPairs Q (a :: P) =
        Q.flatMap fun mc => (mc, a) :: (P.map fun nd => (mc, nd)) := by
      simp [termPairs]
    rw [h1]
    refine List.Perm.trans ?_
      (flatMap_cons_perm (fun mc => (mc, a))
        (fun mc => P.map fun nd => (mc, nd)) Q).symm
    exact List.Perm.append (List.Perm.refl _) (termPairs_swap_perm P Q)

theorem termProducts_swap_perm {M R : Type} [Mul R] (mmul : M → M → M)
    (hm : ∀ x y, mmul x y = mmul y x) (hr : ∀ c d : R, c * d = d * c)
    (P Q : List (M × R)) :
    (termProducts mmul Q P).Perm (termProducts mmul P Q) := by
  rw [termProducts_eq_termPairs, termProducts_eq_termPairs]
  have h1 := (termPairs_swap_perm P Q).map
    fun t : (M × R) × (M × R) => (mmul t.1.1 t.2.1, t.1.2 * t.2.2)
  rw [List.map_map] at h1
  have h2 : ((fun t : (M × R) × (M × R) => (mmul t.1.1 t.2.1, t.1.2 * t.2.2))
      ∘ Prod.swap) =
      fun t : (M × R) × (M × R) => (mmul t.1.1 t.2.1, t.1.2 * t.2.2) := by
    funext t
    exact Prod.ext (hm t.2.1 t.1.1) (hr t.2.2 t.1.2)
  rw [h2] at h1
  exact h1.symm

theorem isEmpty_eq_of_length_eq {α β : Type} {l1 : List α} {l2 : List β}
    (h : l1.length = l2.length) : l1.isEmpty = l2.isEmpty := by
  cases l1 <;> cases l2 <;> simp_all

/-- C7: over a coefficient ring with commutative-associative addition and
commutative multiplication, and a commutative monomial product,
`c_poly_mul` is commutative: the result mappings of `P * Q` and `Q * P`
agree at every key. -/
theorem c7_poly_mul_comm {M R : Type} [DecidableEq M] [AddCommMonoid R]
    [Mul R] [DecidableEq R] (mmul : M → M → M)
    (hm : ∀ x y, mmul x y = mmul y x) (hr : ∀ c d : R, c * d = d * c)
    (P Q : List (M × R)) (k : M) :
    dlookup k (c_poly_mul mmul P Q) = dlookup k (c_poly_mul mmul Q P) := by
  have hperm : (keyVals k (termProducts mmul Q P)).Perm
      (keyVals k (termProducts mmul P Q)) :=
    ((termProducts_swap_perm mmul hm hr P Q).filter _).map _
  have hacc : dlookup k (c_poly_mul_acc mmul P Q) =
      dlookup k (c_poly_mul_acc mmul Q P) := by
    rw [dlookup_c_poly_mul_acc, dlookup_c_poly_mul_acc]
    have hiff : ((keyVals k (termProducts mmul P Q)).isEmpty = true) ↔
        ((keyVals k (termProducts mmul Q P)).isEmpty = true) := by
      rw [isEmpty_eq_of_length_eq hperm.length_eq]
    exact if_congr hiff rfl (by rw [hperm.sum_eq])
  unfold c_poly_mul
  rw [dlookup_polynomial_init (nodup_keys_c_poly_mul_acc mmul P Q) k,
    dlookup_polynomial_init (nodup_keys_c_poly_mul_acc mmul Q P) k, hacc]

/-- Witness for C7 at concrete one-term integer polynomials. -/
theorem c7_poly_mul_comm_witness :
    dlookup 1 (c_poly_mul Nat.add [(0, (2 : Int))] [(1, 3)]) =
      dlookup 1 (c_poly_mul Nat.add [(1, (3 : Int))] [(0, 2)]) :=
  c7_poly_mul_comm Nat.add (fun x y => Nat.add_comm x y)
    (fun c d => Int.mul_comm c d) [(0, (2 : Int))] [(1, 3)] 1

/-! The one-polynomial is a right identity for the polynomial product. -/

theorem flatMap_single {α β : Type} (f : α → β) :
    ∀ l : List α, (l.flatMap fun x => [f x]) = l.map f
  | [] => rfl
  | x :: r => by
    simp only [List.flatMap_cons, List.map_cons, List.singleton_append]
    rw [flatMap_single f r]

theorem dinsert_of_not_mem {M R : Type} [DecidableEq M] [Add R] {k : M}
    (e : R) : ∀ {l : List (M × R)}, k ∉ l.map Prod.fst →
      dinsert k e l = l ++ [(k, e)]
  | [], _ => rfl
  | p :: rest, h => by
    have hp : ¬ p.1 = k := by
      intro hk
      exact h (List.mem_cons.mpr (Or.inl hk.symm))
    simp only [dinsert, if_neg hp, List.cons_append]
    rw [dinsert_of_not_mem e fun hm => h (List.mem_cons.mpr (Or.inr hm))]

theorem foldl_dinsert_of_nodup {M R : Type} [DecidableEq M] [Add R] :
    ∀ (l acc : List (M × R)), (l.map Prod.fst).Nodup →
      (∀ x ∈ l.map Prod.fst, x ∉ acc.map Prod.fst) →
      l.foldl (fun dict p => dinsert p.1 p.2 dict) acc = acc ++ l
  | [], acc, _, _ => (List.append_nil acc).symm
  | p :: rest, acc, hnd, hdisj => by
    rw [List.map_cons, List.nodup_cons] at hnd
    rw [List.foldl_cons]
    have hstep : dinsert p.1 p.2 acc = acc ++ [p] := by
      rw [dinsert_of_not_mem p.2
        (hdisj p.1 (List.mem_cons.mpr (Or.inl rfl)))]
    rw [hstep, foldl_dinsert_of_nodup rest (acc ++ [p]) hnd.2 ?_,
      List.append_assoc, List.singleton_append]
    intro x hx
    rw [List.map_append, List.mem_append]
    rintro (h1 | h1)
    · exact hdisj x (List.mem_cons.mpr (Or.inr hx)) h1
    · rw [List.map_singleton, List.mem_singleton] at h1
      exact hnd.1 (h1 ▸ hx)

/-- C8: multiplying a canonical polynomial `P` by the one-polynomial — the
single term mapping the identity monomial to the ring's multiplicative
identity — returns `P` itself, given the identity laws for the monomial
product and the ring. -/
theorem c8_poly_mul_one {M R : Type} [DecidableEq M] [Add R] [Zero R]
    [MulOneClass R] [DecidableEq R] (mmul : M → M → M) (e : M)
    (hident : ∀ m, mmul m e = m) (P : List (M × R))
    (hnz : ∀ p ∈ P, p.2 ≠ 0) (hnd : (P.map Prod.fst).Nodup) :
    c_poly_mul mmul P [(e, 1)] = P := by
  have hprod : termProducts mmul P [(e, (1 : R))] = P := by
    unfold termProducts
    have hsingle : (P.flatMap fun mc =>
        [(e, (1 : R))].map fun nd => (mmul mc.1 nd.1, mc.2 * nd.2)) =
        P.flatMap fun mc => [(mmul mc.1 e, mc.2 * 1)] := rfl
    rw [hsingle, flatMap_single]
    have hcongr : ∀ mc ∈ P, (mmul mc.1 e, mc.2 * (1 : R)) = mc := by
      intro mc _
      rw [hident mc.1, mul_one]
    rw [List.map_congr_left hcongr]
    exact List.map_id P
  unfold c_poly_mul c_poly_mul_acc
  rw [hprod, foldl_dinsert_of_nodup P [] hnd (by simp), List.nil_append]
  unfold polynomial_init
  rw [List.filter_eq_self.mpr fun p hp => decide_eq_true (hnz p hp)]

/-- Witness for C8: a one-term integer polynomial times the one-polynomial
(Packed-style identity monomial 0) is itself. -/
theorem c8_poly_mul_one_witness :
    c_poly_mul Nat.add [(3, (2 : Int))] [(0, 1)] = [(3, 2)] :=
  c8_poly_mul_one Nat.add 0 (fun m => Nat.add_zero m) [(3, (2 : Int))]
    (by decide) (by decide)

/-- C5: binary operations on monomials or polynomials whose operands differ
in monomial kind (Packed vs Sparse) or in parent ring fail with
`KindMismatch`; in particular a Packed-kind polynomial times a Sparse-kind
polynomial over the same ring fails rather than returning a result. -/
theorem c5_kind_mismatch {R : Type} [Add R] [Mul R] [Zero R] [DecidableEq R] :
    (∀ a b : Mon, a.kind ≠ b.kind →
        mon_mul_checked a b = .error .KindMismatch) ∧
    (∀ P Q : Poly R, P.kind ≠ Q.kind ∨ P.ringId ≠ Q.ringId →
        poly_mul_checked P Q = .error .KindMismatch) := by
  constructor
  · intro a b hab
    cases a <;> cases b <;> first | rfl | exact absurd rfl hab
  · intro P Q h
    have hc : ¬(P.ringId = Q.ringId ∧ P.kind = Q.kind) := by
      rintro ⟨h1, h2⟩
      rcases h with h | h
      · exact h h2
      · exact h h1
    unfold poly_mul_checked
    rw [if_neg hc]

/-- Witness for C5: a Packed monomial times a Sparse monomial, and a
Packed-kind polynomial times a Sparse-kind polynomial over the same ring,
both fail with `KindMismatch`. -/
theorem c5_kind_mismatch_witness :
    mon_mul_checked (.packed 0) (.sparse []) = .error .KindMismatch ∧
      poly_mul_checked (R := Int) ⟨0, .packed, []⟩ ⟨0, .sparse, []⟩ =
        .error .KindMismatch :=
  ⟨(c5_kind_mismatch (R := Int)).1 (.packed 0) (.sparse []) (by decide),
    (c5_kind_mismatch (R := Int)).2 ⟨0, .packed, []⟩ ⟨0, .sparse, []⟩
      (Or.inl (by decide))⟩

/-- C9: the dispatching `c_mon_mul` of cpoly.pyx agrees with `c_packed_mul`
on every pair of Packed monomials, but on Sparse monomials it returns `none`
(its merge loop ends without a `return` statement), not the merged monomial
`c_sparse_mul` produces: at `(0,1)` and `(1,2)` the kind-specific kernel
returns `(0,1,1,2)` while `c_mon_mul` returns no value. -/
theorem c9_mon_mul_divergence :
    (∀ s o : Int, c_mon_mul (.packed s) (.packed o) =
        some (.packed (c_packed_mul s o))) ∧
    c_mon_mul (.sparse [0, 1]) (.sparse [1, 2]) = none ∧
    Mon.sparse (c_sparse_mul [0, 1] [1, 2]) = Mon.sparse [0, 1, 1, 2] := by
  refine ⟨fun s o => rfl, rfl, ?_⟩
  norm_num [c_sparse_mul.eq_def]

end Nuthatch
